import Mathlib

/-!
Verification of the text-position engine of this repository: the
paragraph/grapheme reader (`graphemeReader`) and the glyph position index
(`glyphIndex`) used by the editable-text widget, together with the
`Selectable` rune-offset query.  The repository sources contain the test
suites (`TestIndexPositionWhitespace`, `TestIndexPositionBidi`,
`TestIndexPositionLines`, `TestIndexPositionRunes`,
`TestGraphemeReaderNext`, `TestGraphemeReaderGraphemes`,
`TestSelectableZeroValue`); the implementations themselves are absent, so
the operational definitions below are modelled from the specification,
and the tests' expected-output tables are embedded verbatim as the
authoritative ground truth wherever they decide a property.
-/

/-! ## Paragraph / grapheme reader -/

/-- Modelled from the spec: the missing `graphemeReader.next` assembles one
paragraph at a time — "all runes up to and including a trailing newline, or
all remaining runes if none".  `graphemeReader.paragraphs s` is the list of
paragraphs delivered by repeated `next` calls after `SetSource` on a source
whose decoded rune content is `s`; the byte-to-rune UTF-8 decode is
abstracted away because the repository's round-trip test compares rune
slices. -/
def graphemeReader.paragraphs : List Char → List (List Char)
  | [] => []
  | c :: rest =>
    if c = '\n' then [c] :: graphemeReader.paragraphs rest
    else
      match graphemeReader.paragraphs rest with
      | [] => [[c]]
      | p :: ps => (c :: p) :: ps

theorem graphemeReader.paragraphs_flatten (s : List Char) :
    (graphemeReader.paragraphs s).flatten = s := by
  induction s with
  | nil => rfl
  | cons c rest ih =>
    by_cases hc : c = '\n'
    · simp [graphemeReader.paragraphs, hc] at ih ⊢
      exact ih
    · simp only [graphemeReader.paragraphs, hc, if_false]
      cases h : graphemeReader.paragraphs rest with
      | nil =>
        rw [h] at ih
        simp at ih
        simp [ih]
      | cons p ps =>
        rw [h] at ih
        simpa using congrArg (c :: ·) ih

theorem graphemeReader.paragraphs_ne_nil (s : List Char) :
    ∀ p ∈ graphemeReader.paragraphs s, p ≠ [] := by
  induction s with
  | nil => intro p hp; simp [graphemeReader.paragraphs] at hp
  | cons c rest ih =>
    intro p hp
    by_cases hc : c = '\n'
    · simp only [graphemeReader.paragraphs, hc, if_true] at hp
      rcases List.mem_cons.mp hp with hp | hp
      · simp [hp]
      · exact ih p hp
    · simp only [graphemeReader.paragraphs, hc, if_false] at hp
      cases h : graphemeReader.paragraphs rest with
      | nil => rw [h] at hp; simp at hp; simp [hp]
      | cons q qs =>
        rw [h] at hp
        rcases List.mem_cons.mp hp with hp | hp
        · simp [hp]
        · exact ih p (h ▸ List.mem_cons_of_mem q hp)

theorem graphemeReader.paragraphs_dropLast_newline (s : List Char) :
    ∀ p ∈ (graphemeReader.paragraphs s).dropLast, p.getLast? = some '\n' := by
  induction s with
  | nil => intro p hp; simp [graphemeReader.paragraphs] at hp
  | cons c rest ih =>
    intro p hp
    by_cases hc : c = '\n'
    · simp only [graphemeReader.paragraphs, hc, if_true] at hp
      cases h : graphemeReader.paragraphs rest with
      | nil => rw [h] at hp; simp at hp
      | cons q qs =>
        rw [h, List.dropLast_cons_of_ne_nil (by simp)] at hp
        rcases List.mem_cons.mp hp with hp | hp
        · simp [hp]
        · exact ih p (h ▸ hp)
    · simp only [graphemeReader.paragraphs, hc, if_false] at hp
      cases h : graphemeReader.paragraphs rest with
      | nil => rw [h] at hp; simp at hp
      | cons q qs =>
        rw [h] at hp
        cases hqs : qs with
        | nil => rw [hqs] at hp; simp at hp
        | cons r rs =>
          rw [hqs, List.dropLast_cons_of_ne_nil (by simp)] at hp
          rcases List.mem_cons.mp hp with hp | hp
          · have hq : q ∈ (graphemeReader.paragraphs rest).dropLast := by
              rw [h, hqs, List.dropLast_cons_of_ne_nil (by simp)]
              exact List.mem_cons_self q _
            have hqn : q.getLast? = some '\n' := ih q hq
            have hqne : q ≠ [] := by
              intro hq0; rw [hq0] at hqn; simp at hqn
            subst hp
            cases q with
            | nil => exact absurd rfl hqne
            | cons a as => rw [List.getLast?_cons_cons]; exact hqn
          · have hmem : p ∈ (graphemeReader.paragraphs rest).dropLast := by
              rw [h, hqs, List.dropLast_cons_of_ne_nil (by simp)]
              exact List.mem_cons_of_mem q hp
            exact ih p hmem

/-- Modelled from the spec: character class for the simplified default
grapheme-cluster segmentation used by the missing `graphemeReader` — an
extending character (combining diacritical marks, zero-width joiner)
attaches to the preceding base character and suppresses a boundary. -/
def isGraphemeExtend (c : Char) : Bool :=
  (0x300 ≤ c.toNat && c.toNat ≤ 0x36F) || c.toNat == 0x200D

/-- Modelled from the spec: whether a grapheme-cluster boundary falls
between two adjacent runes (simplified Unicode default rules: no break
before an extending character, no break inside a CR LF pair). -/
def graphemeBreakBetween (a b : Char) : Bool :=
  !(isGraphemeExtend b) && !(a == '\r' && b == '\n')

/-- Modelled from the spec: interior and final grapheme boundaries of the
rune list, each offset by `i` (the number of runes already consumed); the
final boundary `i + length` is always reported. -/
def graphemeBoundsFrom : List Char → Nat → List Nat
  | [], _ => []
  | [_], i => [i + 1]
  | a :: b :: rest, i =>
    if graphemeBreakBetween a b then (i + 1) :: graphemeBoundsFrom (b :: rest) (i + 1)
    else graphemeBoundsFrom (b :: rest) (i + 1)

/-- Modelled from the spec: the grapheme-cluster boundary offsets of one
paragraph, relative to the start of the paragraph; boundary 0 and the
boundary at the paragraph's rune length are always included for a nonempty
paragraph, and an exhausted reader reports no boundaries. -/
def graphemeBounds (p : List Char) : List Nat :=
  match p with
  | [] => []
  | _ :: _ => 0 :: graphemeBoundsFrom p 0

/-- Modelled from the spec and `TestGraphemeReaderGraphemes`: the sequence
of boundary lists produced by calling `graphemeReader.Graphemes` once per
paragraph; offsets are document-global rune offsets (the reader carries the
cumulative rune offset `off` across paragraphs, which is what lets the
first boundary of a paragraph coincide with the last boundary of the
previous one). -/
def graphemeReader.graphemeLists : List (List Char) → Nat → List (List Nat)
  | [], _ => []
  | p :: ps, off =>
    (graphemeBounds p).map (· + off) :: graphemeReader.graphemeLists ps (off + p.length)

/-- Modelled from the spec: all results of repeated `Graphemes` calls over
a full document with rune content `s`. -/
def graphemeReader.Graphemes (s : List Char) : List (List Nat) :=
  graphemeReader.graphemeLists (graphemeReader.paragraphs s) 0

/-- Accumulation procedure of `TestGraphemeReaderGraphemes`: concatenate
the per-paragraph boundary lists, dropping the first (seam-duplicated)
boundary of every list after the first. -/
def dedupBoundaries : List (List Nat) → List Nat
  | [] => []
  | l :: ls => l ++ (ls.map List.tail).flatten

theorem graphemeBoundsFrom_ne_nil (l : List Char) (i : Nat) (h : l ≠ []) :
    graphemeBoundsFrom l i ≠ [] := by
  match l with
  | [] => exact absurd rfl h
  | [a] => simp [graphemeBoundsFrom]
  | a :: b :: rest =>
    by_cases hbr : graphemeBreakBetween a b
    · simp [graphemeBoundsFrom, hbr]
    · simp only [graphemeBoundsFrom, hbr, if_false]
      exact graphemeBoundsFrom_ne_nil (b :: rest) (i + 1) (by simp)

theorem graphemeBoundsFrom_lt (l : List Char) (i : Nat) :
    ∀ x ∈ graphemeBoundsFrom l i, i < x := by
  match l with
  | [] => intro x hx; simp [graphemeBoundsFrom] at hx
  | [a] => intro x hx; simp [graphemeBoundsFrom] at hx; omega
  | a :: b :: rest =>
    intro x hx
    by_cases hbr : graphemeBreakBetween a b
    · simp only [graphemeBoundsFrom, hbr, if_true] at hx
      rcases List.mem_cons.mp hx with hx | hx
      · omega
      · have := graphemeBoundsFrom_lt (b :: rest) (i + 1) x hx
        omega
    · simp only [graphemeBoundsFrom, hbr, if_false] at hx
      have := graphemeBoundsFrom_lt (b :: rest) (i + 1) x hx
      omega

theorem graphemeBoundsFrom_chain (l : List Char) (i : Nat) :
    List.Chain' (· < ·) (graphemeBoundsFrom l i) := by
  match l with
  | [] => simp [graphemeBoundsFrom]
  | [a] => simp [graphemeBoundsFrom]
  | a :: b :: rest =>
    by_cases hbr : graphemeBreakBetween a b
    · simp only [graphemeBoundsFrom, hbr, if_true]
      refine List.chain'_cons'.mpr ⟨?_, graphemeBoundsFrom_chain (b :: rest) (i + 1)⟩
      intro y hy
      exact graphemeBoundsFrom_lt (b :: rest) (i + 1) y (List.mem_of_mem_head? hy)
    · simp only [graphemeBoundsFrom, hbr, if_false]
      exact graphemeBoundsFrom_chain (b :: rest) (i + 1)

theorem graphemeBoundsFrom_getLast (l : List Char) (i : Nat) (h : l ≠ []) :
    (graphemeBoundsFrom l i).getLast? = some (i + l.length) := by
  match l with
  | [] => exact absurd rfl h
  | [a] => simp [graphemeBoundsFrom]
  | a :: b :: rest =>
    have ih := graphemeBoundsFrom_getLast (b :: rest) (i + 1) (by simp)
    by_cases hbr : graphemeBreakBetween a b
    · simp only [graphemeBoundsFrom, hbr, if_true]
      rw [List.getLast?_cons, ih]
      · simp; omega
    · have hbrf : graphemeBreakBetween a b = false := by simpa using hbr
      simp only [graphemeBoundsFrom, hbrf]
      rw [if_neg (by simp)]
      rw [ih]
      simp; omega

theorem graphemeBoundsFrom_length (l : List Char) (i : Nat) :
    (graphemeBoundsFrom l i).length ≤ l.length := by
  match l with
  | [] => simp [graphemeBoundsFrom]
  | [a] => simp [graphemeBoundsFrom]
  | a :: b :: rest =>
    have ih := graphemeBoundsFrom_length (b :: rest) (i + 1)
    by_cases hbr : graphemeBreakBetween a b
    · simp only [graphemeBoundsFrom, hbr, if_true]
      simp at ih ⊢
      omega
    · simp only [graphemeBoundsFrom, hbr, if_false]
      simp at ih ⊢
      omega

theorem graphemeBounds_ne_nil (p : List Char) (h : p ≠ []) :
    graphemeBounds p ≠ [] := by
  cases p with
  | nil => exact absurd rfl h
  | cons a rest => simp [graphemeBounds]

theorem graphemeBounds_head (p : List Char) (h : p ≠ []) :
    (graphemeBounds p).head? = some 0 := by
  cases p with
  | nil => exact absurd rfl h
  | cons a rest => simp [graphemeBounds]

theorem graphemeBounds_getLast (p : List Char) (h : p ≠ []) :
    (graphemeBounds p).getLast? = some p.length := by
  cases p with
  | nil => exact absurd rfl h
  | cons a rest =>
    have hfrom := graphemeBoundsFrom_getLast (a :: rest) 0 (by simp)
    have hne := graphemeBoundsFrom_ne_nil (a :: rest) 0 (by simp)
    show ((0 : Nat) :: graphemeBoundsFrom (a :: rest) 0).getLast? = some (a :: rest).length
    cases hlist : graphemeBoundsFrom (a :: rest) 0 with
    | nil => exact absurd hlist hne
    | cons x xs =>
      rw [hlist] at hfrom
      rw [List.getLast?_cons_cons, hfrom]
      simp

theorem graphemeBounds_chain (p : List Char) :
    List.Chain' (· < ·) (graphemeBounds p) := by
  cases p with
  | nil => simp [graphemeBounds]
  | cons a rest =>
    show List.Chain' (· < ·) ((0 : Nat) :: graphemeBoundsFrom (a :: rest) 0)
    refine List.chain'_cons'.mpr ⟨?_, graphemeBoundsFrom_chain (a :: rest) 0⟩
    intro y hy
    exact graphemeBoundsFrom_lt (a :: rest) 0 y (List.mem_of_mem_head? hy)

theorem graphemeBounds_length (p : List Char) :
    (graphemeBounds p).length ≤ p.length + 1 := by
  cases p with
  | nil => simp [graphemeBounds]
  | cons a rest =>
    show ((0 : Nat) :: graphemeBoundsFrom (a :: rest) 0).length ≤ (a :: rest).length + 1
    have := graphemeBoundsFrom_length (a :: rest) 0
    simp at this ⊢
    omega

theorem graphemeReader.graphemeLists_length (ps : List (List Char)) (off : Nat) :
    (graphemeReader.graphemeLists ps off).length = ps.length := by
  induction ps generalizing off with
  | nil => rfl
  | cons p rest ih => simp [graphemeReader.graphemeLists, ih]

theorem graphemeReader.graphemeLists_get_spec (ps : List (List Char)) (off k : Nat)
    (hne : ∀ p ∈ ps, p ≠ []) (h : k < (graphemeReader.graphemeLists ps off).length) :
    List.Chain' (· < ·) ((graphemeReader.graphemeLists ps off).get ⟨k, h⟩) ∧
    ((graphemeReader.graphemeLists ps off).get ⟨k, h⟩).head? =
      some (off + (((ps.take k).map List.length).sum)) ∧
    ((graphemeReader.graphemeLists ps off).get ⟨k, h⟩).getLast? =
      some (off + (((ps.take (k + 1)).map List.length).sum)) := by
  induction ps generalizing off k with
  | nil => simp [graphemeReader.graphemeLists] at h
  | cons p rest ih =>
    have hpne : p ≠ [] := hne p (List.mem_cons_self p rest)
    cases k with
    | zero =>
      refine ⟨?_, ?_, ?_⟩
      · show List.Chain' (· < ·) ((graphemeBounds p).map (· + off))
        rw [List.chain'_map]
        exact (graphemeBounds_chain p).imp (fun hab => by omega)
      · show ((graphemeBounds p).map (· + off)).head? = some (off + _)
        rw [List.head?_map, graphemeBounds_head p hpne]
        simp
      · show ((graphemeBounds p).map (· + off)).getLast? = some (off + _)
        rw [List.getLast?_map, graphemeBounds_getLast p hpne]
        simp [Nat.add_comm]
    | succ k2 =>
      have h2 : k2 < (graphemeReader.graphemeLists rest (off + p.length)).length := by
        simp [graphemeReader.graphemeLists] at h
        rw [graphemeReader.graphemeLists_length] at h ⊢
        omega
      have hne2 : ∀ q ∈ rest, q ≠ [] := fun q hq => hne q (List.mem_cons_of_mem p hq)
      have heq : (graphemeReader.graphemeLists (p :: rest) off).get ⟨k2 + 1, h⟩ =
          (graphemeReader.graphemeLists rest (off + p.length)).get ⟨k2, h2⟩ := by
        simp [graphemeReader.graphemeLists]
      obtain ⟨hch, hhd, hlast⟩ := ih (off + p.length) k2 hne2 h2
      refine ⟨heq ▸ hch, ?_, ?_⟩
      · rw [heq, hhd]
        simp [List.take_succ_cons]
        omega
      · rw [heq, hlast]
        simp [List.take_succ_cons]
        omega

theorem graphemeReader.graphemeLists_tails_length (ps : List (List Char)) (off : Nat) :
    (((graphemeReader.graphemeLists ps off).map List.tail).flatten).length ≤
      (ps.map List.length).sum := by
  induction ps generalizing off with
  | nil => simp [graphemeReader.graphemeLists]
  | cons p rest ih =>
    have hb := graphemeBounds_length p
    have ihr := ih (off + p.length)
    simp only [graphemeReader.graphemeLists, List.map_cons, List.flatten_cons,
      List.length_append, List.map_cons, List.sum_cons]
    have htail : (((graphemeBounds p).map (· + off)).tail).length ≤ p.length := by
      simp [List.length_tail]
      omega
    omega

theorem dedupBoundaries_length_le (ps : List (List Char)) (off : Nat) :
    (dedupBoundaries (graphemeReader.graphemeLists ps off)).length ≤
      (ps.map List.length).sum + 1 := by
  cases ps with
  | nil => simp [graphemeReader.graphemeLists, dedupBoundaries]
  | cons p rest =>
    have hb := graphemeBounds_length p
    have ht := graphemeReader.graphemeLists_tails_length rest (off + p.length)
    simp only [graphemeReader.graphemeLists, dedupBoundaries, List.length_append,
      List.map_cons, List.sum_cons, List.length_map]
    omega

theorem graphemeReader.paragraphs_length_sum (s : List Char) :
    ((graphemeReader.paragraphs s).map List.length).sum = s.length := by
  have h := graphemeReader.paragraphs_flatten s
  calc ((graphemeReader.paragraphs s).map List.length).sum
      = (graphemeReader.paragraphs s).flatten.length := (List.length_flatten _).symm
    _ = s.length := by rw [h]

theorem chain_lt_head_le (l : List Nat) (a : Nat) (hc : List.Chain' (· < ·) l)
    (hh : l.head? = some a) : ∀ x ∈ l, a ≤ x := by
  cases l with
  | nil => simp at hh
  | cons b t =>
    simp at hh
    intro x hx
    rcases List.mem_cons.mp hx with rfl | hx
    · omega
    · have hp : List.Pairwise (· < ·) (b :: t) := List.chain'_iff_pairwise.mp hc
      have := (List.pairwise_cons.mp hp).1 x hx
      omega

theorem chain_lt_le_getLast (l : List Nat) (b : Nat) (hc : List.Chain' (· < ·) l)
    (hl : l.getLast? = some b) : ∀ x ∈ l, x ≤ b := by
  induction l with
  | nil => simp at hl
  | cons c t ih =>
    intro x hx
    cases t with
    | nil =>
      simp at hl hx
      omega
    | cons d t2 =>
      rw [List.getLast?_cons_cons] at hl
      have hc2 : List.Chain' (· < ·) (d :: t2) := (List.chain'_cons'.mp hc).2
      rcases List.mem_cons.mp hx with rfl | hx
      · have hp : List.Pairwise (· < ·) (x :: d :: t2) := List.chain'_iff_pairwise.mp hc
        have hbmem : b ∈ d :: t2 := by
          obtain ⟨hne0, hbeq⟩ := List.mem_getLast?_eq_getLast (l := d :: t2) (x := b) hl
          rw [hbeq]
          exact List.getLast_mem hne0
        have := (List.pairwise_cons.mp hp).1 b hbmem
        omega
      · exact ih hc2 hl x hx

/-- Rune offset, into the whole document, at which paragraph `k` starts. -/
def paraOffset (s : List Char) (k : Nat) : Nat :=
  (((graphemeReader.paragraphs s).take k).map List.length).sum

/-- Newline-restoring concatenation procedure described by claim C2 and §8
of the spec: append the supposedly stripped trailing newline to every
delivered paragraph except the final one when the source had no trailing
newline. -/
def restoreConcat : List (List Char) → Bool → List Char
  | [], _ => []
  | [p], hadNL => p ++ (if hadNL then ['\n'] else [])
  | p :: q :: rest, hadNL => (p ++ ['\n']) ++ restoreConcat (q :: rest) hadNL

/-- C2 counterexample: the Reader does not strip trailing newlines.  At
input "a\nb" (which has no trailing newline) the first delivered paragraph
is "a\n" with its newline intact, so the newline-restoring concatenation
that the claim prescribes yields "a\n\nb", not the original "a\nb". -/
theorem C2_counterexample :
    graphemeReader.paragraphs ['a', '\n', 'b'] = [['a', '\n'], ['b']] ∧
    restoreConcat (graphemeReader.paragraphs ['a', '\n', 'b']) false =
      ['a', '\n', '\n', 'b'] ∧
    restoreConcat (graphemeReader.paragraphs ['a', '\n', 'b']) false ≠
      ['a', '\n', 'b'] := by
  refine ⟨by decide, by decide, by decide⟩

/-- C2 (amended): concatenating, in order, all paragraphs yielded by
repeated `next` calls after `SetSource` reproduces the original input
exactly, rune for rune, for every input (including empty, pure-whitespace
and newline-only sources); no newline restoration is needed or performed,
because every non-final paragraph is delivered with its trailing newline
intact. -/
theorem C2_reader_roundTrip (s : List Char) :
    (graphemeReader.paragraphs s).flatten = s ∧
    ∀ p ∈ (graphemeReader.paragraphs s).dropLast, p.getLast? = some '\n' :=
  ⟨graphemeReader.paragraphs_flatten s, graphemeReader.paragraphs_dropLast_newline s⟩

/-- Witness for `C2_reader_roundTrip` at the concrete input "a\nb". -/
theorem C2_reader_roundTrip_witness :
    (graphemeReader.paragraphs ['a', '\n', 'b']).flatten = ['a', '\n', 'b'] ∧
    (['a', '\n'] : List Char).getLast? = some '\n' :=
  ⟨(C2_reader_roundTrip ['a', '\n', 'b']).1,
    (C2_reader_roundTrip ['a', '\n', 'b']).2 ['a', '\n'] (by decide)⟩

/-- C4 counterexample: `Graphemes` reports document-global rune offsets, so
for the two-paragraph document "a\nb" the second call returns `[2, 3]`,
which neither starts at 0 nor ends at the second paragraph's rune length
(1); the claim's "start at 0, end at the paragraph's rune length" is
therefore false for every paragraph after the first. -/
theorem C4_counterexample :
    graphemeReader.Graphemes ['a', '\n', 'b'] = [[0, 1, 2], [2, 3]] ∧
    graphemeReader.paragraphs ['a', '\n', 'b'] = [['a', '\n'], ['b']] ∧
    ([2, 3] : List Nat).head? ≠ some 0 ∧
    ([2, 3] : List Nat).getLast? ≠ some (['b'] : List Char).length := by
  decide

/-- C4 (amended): each `Graphemes` call's boundary list is strictly
increasing; its first boundary equals the paragraph's starting rune offset
within the document (0 exactly for the first paragraph) and its last
boundary equals that starting offset plus the paragraph's rune length
(offsets are document-global, not paragraph-local); the boundaries
accumulated over the whole document — dropping the seam-shared first
boundary of every later call, as the test does — never number more than
the document's rune length plus 1. -/
theorem C4_grapheme_boundaries (s : List Char) (k : Nat)
    (h : k < (graphemeReader.Graphemes s).length) :
    List.Chain' (· < ·) ((graphemeReader.Graphemes s).get ⟨k, h⟩) ∧
    ((graphemeReader.Graphemes s).get ⟨k, h⟩).head? = some (paraOffset s k) ∧
    ((graphemeReader.Graphemes s).get ⟨k, h⟩).getLast? = some (paraOffset s (k + 1)) ∧
    paraOffset s (k + 1) =
      paraOffset s k + ((graphemeReader.paragraphs s).get ⟨k, by
        have h2 := h
        simp only [graphemeReader.Graphemes] at h2
        rw [graphemeReader.graphemeLists_length] at h2
        exact h2⟩).length ∧
    (dedupBoundaries (graphemeReader.Graphemes s)).length ≤ s.length + 1 := by
  have hk : k < (graphemeReader.paragraphs s).length := by
    have h2 := h
    simp only [graphemeReader.Graphemes] at h2
    rw [graphemeReader.graphemeLists_length] at h2
    exact h2
  obtain ⟨hch, hhd, hlast⟩ := graphemeReader.graphemeLists_get_spec
    (graphemeReader.paragraphs s) 0 k (graphemeReader.paragraphs_ne_nil s) h
  have hoff : ∀ j : Nat, paraOffset s j =
      0 + (((graphemeReader.paragraphs s).take j).map List.length).sum := by
    intro j; simp [paraOffset]
  refine ⟨hch, ?_, ?_, ?_, ?_⟩
  · show ((graphemeReader.graphemeLists (graphemeReader.paragraphs s) 0).get
      ⟨k, h⟩).head? = some (paraOffset s k)
    rw [hhd, hoff k]
  · show ((graphemeReader.graphemeLists (graphemeReader.paragraphs s) 0).get
      ⟨k, h⟩).getLast? = some (paraOffset s (k + 1))
    rw [hlast, hoff (k + 1)]
  · unfold paraOffset
    rw [List.take_succ]
    have hgk : (graphemeReader.paragraphs s)[k]? =
        some ((graphemeReader.paragraphs s).get ⟨k, hk⟩) := by
      rw [List.getElem?_eq_getElem hk]
      simp
    rw [hgk]
    simp
    rw [List.sum_take_succ _ k (by simpa using hk)]
    simp
  · have := dedupBoundaries_length_le (graphemeReader.paragraphs s) 0
    rw [graphemeReader.paragraphs_length_sum] at this
    exact this

/-- Witness for `C4_grapheme_boundaries` at the document "a\nb" and its
second paragraph. -/
theorem C4_grapheme_boundaries_witness :
    1 < (graphemeReader.Graphemes ['a', '\n', 'b']).length ∧
    ((graphemeReader.Graphemes ['a', '\n', 'b']).get ⟨1, by decide⟩).head? =
      some (paraOffset ['a', '\n', 'b'] 1) :=
  ⟨by decide, (C4_grapheme_boundaries ['a', '\n', 'b'] 1 (by decide)).2.1⟩

/-- C5: for every document with at least two paragraphs, the first
boundary reported by `Graphemes` for a paragraph equals the last boundary
reported for the immediately preceding paragraph, and that shared seam
value (the later paragraph's starting rune offset) is the only value the
two boundary lists have in common. -/
theorem C5_shared_seam (s : List Char) (k : Nat)
    (h : k + 1 < (graphemeReader.Graphemes s).length) :
    ((graphemeReader.Graphemes s).get ⟨k + 1, h⟩).head? =
      ((graphemeReader.Graphemes s).get ⟨k, Nat.lt_of_succ_lt h⟩).getLast? ∧
    ∀ x, x ∈ (graphemeReader.Graphemes s).get ⟨k, Nat.lt_of_succ_lt h⟩ →
      x ∈ (graphemeReader.Graphemes s).get ⟨k + 1, h⟩ → x = paraOffset s (k + 1) := by
  obtain ⟨hchk, hhdk, hlastk⟩ := graphemeReader.graphemeLists_get_spec
    (graphemeReader.paragraphs s) 0 k (graphemeReader.paragraphs_ne_nil s)
    (Nat.lt_of_succ_lt h)
  obtain ⟨hchk1, hhdk1, hlastk1⟩ := graphemeReader.graphemeLists_get_spec
    (graphemeReader.paragraphs s) 0 (k + 1) (graphemeReader.paragraphs_ne_nil s) h
  constructor
  · show ((graphemeReader.graphemeLists (graphemeReader.paragraphs s) 0).get
        ⟨k + 1, h⟩).head? =
      ((graphemeReader.graphemeLists (graphemeReader.paragraphs s) 0).get
        ⟨k, Nat.lt_of_succ_lt h⟩).getLast?
    rw [hhdk1, hlastk]
  · intro x hxk hxk1
    have hup := chain_lt_le_getLast _ _ hchk hlastk x hxk
    have hlow := chain_lt_head_le _ _ hchk1 hhdk1 x hxk1
    have : paraOffset s (k + 1) =
        0 + (((graphemeReader.paragraphs s).take (k + 1)).map List.length).sum := by
      simp [paraOffset]
    omega

/-- Witness for `C5_shared_seam` at the document "a\nb". -/
theorem C5_shared_seam_witness :
    1 < (graphemeReader.Graphemes ['a', '\n', 'b']).length ∧
    ((graphemeReader.Graphemes ['a', '\n', 'b']).get ⟨1, by decide⟩).head? =
      ((graphemeReader.Graphemes ['a', '\n', 'b']).get ⟨0, by decide⟩).getLast? :=
  ⟨by decide, (C5_shared_seam ['a', '\n', 'b'] 0 (by decide)).1⟩

/-! ## Glyph position index -/

/-- Horizontal alignment parameter of a layout (§6 of the spec). -/
inductive text.Alignment
  | Start
  | Middle
  | End
deriving DecidableEq, Repr

/-- One shaped glyph, as consumed through the shaper output contract of §6:
advance width, rune count represented, vertical metrics, and the boolean
flags for line end, mandatory (paragraph) break, run end and
right-to-left/toward-origin direction. -/
structure Glyph where
  advance : Int := 0
  runes : Nat := 0
  ascent : Int := 0
  descent : Int := 0
  breaksLine : Bool := false
  breaksParagraph : Bool := false
  breaksRun : Bool := false
  towardOrigin : Bool := false
deriving DecidableEq, Repr

/-- Zero-based visual line and column of a caret position. -/
structure screenPos where
  line : Nat := 0
  col : Nat := 0
deriving DecidableEq, Repr

/-- One visual caret location (data model of §3). -/
structure combinedPos where
  x : Int := 0
  y : Int := 0
  ascent : Int := 0
  descent : Int := 0
  runes : Nat := 0
  lineCol : screenPos := {}
  runIndex : Nat := 0
  towardOrigin : Bool := false
deriving DecidableEq, Repr

/-- One finished visual line (data model of §3). -/
structure lineInfo where
  xOff : Int := 0
  yOff : Int := 0
  width : Int := 0
  ascent : Int := 0
  descent : Int := 0
  glyphs : Nat := 0
deriving DecidableEq, Repr

/-- Layout parameters the index needs when closing a line: the alignment,
the alignment width, and the paragraph's base direction. -/
structure layoutParams where
  align : text.Alignment := text.Alignment.Start
  maxWidth : Int := 0
  baseRTL : Bool := false
deriving DecidableEq, Repr

/-- Pixel ceiling of a fixed-point 26.6 value, as Go's
`fixed.Int26_6.Ceil`: an arithmetic right shift of `v + 63` by 6, which is
floor division by 64. -/
def fixedCeil (v : Int) : Int := Int.ediv (v + 63) 64

/-- Modelled from the spec (§4.1) and the expected tables of
`TestIndexPositionLines`: horizontal alignment offset of a finished line.
§4.1 gives Start ↦ 0, Middle ↦ (maxWidth − width)/2, End ↦ maxWidth −
width; the expected tables show Start and End resolved relative to the
paragraph's base direction (an End-aligned right-to-left paragraph is
flush with x = 0, a Start-aligned one is flush right), so those two
formulas mirror for a right-to-left base.  Division truncates toward zero
as Go's does. -/
def alignOff (a : text.Alignment) (baseRTL : Bool) (maxWidth width : Int) : Int :=
  match a, baseRTL with
  | text.Alignment.Start, false => 0
  | text.Alignment.End, false => maxWidth - width
  | text.Alignment.Start, true => maxWidth - width
  | text.Alignment.End, true => 0
  | text.Alignment.Middle, _ => Int.tdiv (maxWidth - width) 2

/-- Modelled from the spec (§4.1): incremental state of the glyph position
index.  `done` holds the finalized positions of closed lines, `cur` the
open line's positions in emission order (their `x` still line-relative and
their vertical data unset until the line closes); `positions` is their
concatenation.  The remaining fields are the §4.1 accumulators: cumulative
rune count, current line/column, current run index and direction, flags
for a pending run break and for the pending column-0 position of a freshly
opened line (after a hard or a soft break), line-relative x, per-line
width/metrics/glyph count, and the baseline bookkeeping. -/
structure glyphIndex where
  done : List combinedPos := []
  cur : List combinedPos := []
  lines : List lineInfo := []
  runes : Nat := 0
  line : Nat := 0
  col : Nat := 0
  runIdx : Nat := 0
  runToward : Bool := false
  runActive : Bool := false
  pendingRunBreak : Bool := false
  pendingHard : Bool := false
  pendingSoft : Bool := false
  x : Int := 0
  lineWidth : Int := 0
  lineAscent : Int := 0
  lineDescent : Int := 0
  lineGlyphs : Nat := 0
  yOff : Int := 0
  prevDescent : Int := 0
  firstLine : Bool := true
deriving DecidableEq, Repr

/-- Modelled from the spec: `reset` clears to the empty-document baseline,
holding the single initial position at runes 0, line 0, column 0 (the
caret before any content, present even for empty text). -/
def glyphIndex.reset : glyphIndex :=
  { cur := [{}] }

/-- All positions of the index so far, in emission order. -/
def glyphIndex.positions (st : glyphIndex) : List combinedPos :=
  st.done ++ st.cur

/-- Finalization of one open-line position when its line closes: the
alignment offset is added to its line-relative x, and the line's baseline
and line-level metrics are recorded; rune accounting and line/column are
untouched. -/
def finalizePos (off y asc desc : Int) (p : combinedPos) : combinedPos :=
  { p with x := p.x + off, y := y, ascent := asc, descent := desc }

/-- Modelled from the spec (§4.1) and the expected tables of
`TestIndexPositionLines`: closing the open line.  The alignment offset is
applied to every position of the line and recorded as the line's `xOff`;
the baseline is the pixel ceiling of the first line's ascent, and then
advances by the pixel ceiling of the previous line's descent plus this
line's ascent; the finished `lineInfo` is appended and the per-line
accumulators reset, the line counter advancing by one. -/
def glyphIndex.closeLine (P : layoutParams) (st : glyphIndex) : glyphIndex :=
  let off := alignOff P.align P.baseRTL P.maxWidth st.lineWidth
  let y := if st.firstLine then fixedCeil st.lineAscent
           else st.yOff + fixedCeil (st.prevDescent + st.lineAscent)
  { st with
    done := st.done ++ st.cur.map (finalizePos off y st.lineAscent st.lineDescent),
    cur := [],
    lines := st.lines ++ [{ xOff := off, yOff := y, width := st.lineWidth,
                            ascent := st.lineAscent, descent := st.lineDescent,
                            glyphs := st.lineGlyphs }],
    line := st.line + 1,
    col := 0,
    runIdx := 0,
    runActive := false,
    pendingRunBreak := false,
    x := 0,
    lineWidth := 0,
    lineAscent := 0,
    lineDescent := 0,
    lineGlyphs := 0,
    yOff := y,
    prevDescent := st.lineDescent,
    firstLine := false }

/-- Emission of the column-0 position of a freshly opened line (pending
since the hard or soft break that closed the previous line), carrying the
direction of the run that opens the new line. -/
def glyphIndex.emitLineStart (st : glyphIndex) (rt : Bool) : glyphIndex :=
  { st with
    cur := st.cur ++ [{ runes := st.runes, lineCol := { line := st.line, col := 0 },
                        runIndex := 0, towardOrigin := rt }],
    runToward := rt,
    runActive := true,
    pendingHard := false,
    pendingSoft := false }

/-- Modelled from the spec (§4.1 and the ligature scenario of §8): a glyph
representing `total` runes emits `total` positions interpolated in equal
subdivisions of its advance width, each advancing the cumulative rune
count and the column by one; `remaining` counts the emissions left. -/
def glyphIndex.emitRunesAux (base adv : Int) (total : Nat) :
    Nat → glyphIndex → glyphIndex
  | 0, st => st
  | Nat.succ m, st =>
    let k := total - m
    let st2 := { st with
      runes := st.runes + 1,
      col := st.col + 1,
      cur := st.cur ++ [{ x := base + Int.tdiv (adv * (k : Int)) (total : Int),
                          runes := st.runes + 1,
                          lineCol := { line := st.line, col := st.col + 1 },
                          runIndex := st.runIdx,
                          towardOrigin := st.runToward }] }
    glyphIndex.emitRunesAux base adv total m st2

/-- Modelled from the spec (§4.1) and the expected table of
`TestIndexPositionRunes`: run bookkeeping when a non-break glyph arrives.
The first run of a line adopts the glyph's direction; after a run-end flag
the run index advances and, exactly when the direction changes, the seam
position (same rune offset, same line/column, new run index and new
direction) is emitted. -/
def glyphIndex.runBoundary (g : Glyph) (st : glyphIndex) : glyphIndex :=
  if !st.runActive then { st with runToward := g.towardOrigin, runActive := true }
  else if st.pendingRunBreak then
    let st2 := { st with runIdx := st.runIdx + 1, pendingRunBreak := false }
    if g.towardOrigin ≠ st2.runToward then
      { st2 with
        runToward := g.towardOrigin,
        cur := st2.cur ++ [{ x := st2.x, runes := st2.runes,
                             lineCol := { line := st2.line, col := st2.col },
                             runIndex := st2.runIdx,
                             towardOrigin := g.towardOrigin }] }
    else st2
  else st

/-- Rune and metric accounting of a mandatory-break glyph: its runes are
consumed and its vertical metrics folded into the open line's. -/
def glyphIndex.accountBreak (g : Glyph) (st : glyphIndex) : glyphIndex :=
  { st with
    runes := st.runes + g.runes,
    lineAscent := max st.lineAscent g.ascent,
    lineDescent := max st.lineDescent g.descent }

/-- Per-line metric accounting of a visible glyph: maximum ascent and
descent, and the line's glyph count. -/
def glyphIndex.accountMetrics (g : Glyph) (st : glyphIndex) : glyphIndex :=
  { st with
    lineAscent := max st.lineAscent g.ascent,
    lineDescent := max st.lineDescent g.descent,
    lineGlyphs := st.lineGlyphs + 1 }

/-- Horizontal advance accounting of a glyph, and the recording of its
run-end flag for the next glyph's run bookkeeping. -/
def glyphIndex.advanceGlyph (g : Glyph) (st : glyphIndex) : glyphIndex :=
  { st with
    x := st.x + g.advance,
    lineWidth := st.lineWidth + g.advance,
    pendingRunBreak := g.breaksRun }

/-- Modelled from the spec (§4.1) and the expected tables of
`TestIndexPositionWhitespace` and `TestIndexPositionRunes`: feeding one
glyph, in the order the shaper emits them.  A pending new-line position is
emitted first (its direction is the direction of the run opening the new
line).  A mandatory-break glyph accounts its runes and metrics
(`accountBreak`), closes the line, and leaves the position at the start of
the next line pending, so the caret after a trailing newline is
addressable.  Any other glyph first resolves `runBoundary` bookkeeping,
then accumulates line metrics (`accountMetrics`), emits its interpolated
rune positions, accounts its advance (`advanceGlyph`), and on a line-end
flag closes the line, leaving the next line's start position pending. -/
def glyphIndex.Glyph (P : layoutParams) (st : glyphIndex) (g : Glyph) : glyphIndex :=
  let stA := if st.pendingHard || st.pendingSoft then st.emitLineStart g.towardOrigin else st
  if g.breaksParagraph then
    { (glyphIndex.accountBreak g stA).closeLine P with
      pendingHard := true, runToward := g.towardOrigin }
  else
    let stM := glyphIndex.accountMetrics g (glyphIndex.runBoundary g stA)
    let stX := glyphIndex.advanceGlyph g
      (glyphIndex.emitRunesAux stM.x g.advance g.runes g.runes stM)
    if g.breaksLine then { stX.closeLine P with pendingSoft := true } else stX

/-- Modelled from the spec: end of the glyph stream — the pending position
after a trailing hard break is emitted (the caret must be addressable at
every paragraph boundary even when no glyph follows). -/
def glyphIndex.finish (st : glyphIndex) : glyphIndex :=
  if st.pendingHard then st.emitLineStart st.runToward else st

/-- Modelled from the spec: one complete layout pass — reset, feed every
glyph in shaping order, account the trailing paragraph boundary. -/
def glyphIndexRun (P : layoutParams) (gs : List Glyph) : glyphIndex :=
  (gs.foldl (glyphIndex.Glyph P) glyphIndex.reset).finish

/-! ## Expected tables embedded from the repository's test suites -/

/-- Expected positions of the "blank line" case (input "a\n\nb") of
`TestIndexPositionWhitespace`, embedded from the source. -/
def expectedBlankLine : List combinedPos :=
  [ { x := 0, y := 16, ascent := 968, descent := 216 },
    { x := 570, y := 16, ascent := 968, descent := 216, runes := 1,
      lineCol := { col := 1 } },
    { x := 0, y := 35, ascent := 968, descent := 216, runes := 2,
      lineCol := { line := 1 } },
    { x := 0, y := 54, ascent := 968, descent := 216, runes := 3,
      lineCol := { line := 2 } },
    { x := 570, y := 54, ascent := 968, descent := 216, runes := 4,
      lineCol := { line := 2, col := 1 } } ]

/-- Expected lines of the "bidi ltr" case of `TestIndexPositionLines`
(left-to-right base, Start alignment, line width 160 px = 10240 units),
embedded from the source. -/
def bidiLTRLines : List lineInfo :=
  [ { xOff := 0, yOff := 22, glyphs := 15, width := 7133, ascent := 1407, descent := 756 },
    { xOff := 0, yOff := 56, glyphs := 15, width := 7905, ascent := 1407, descent := 756 },
    { xOff := 0, yOff := 90, glyphs := 18, width := 8813, ascent := 1407, descent := 756 },
    { xOff := 0, yOff := 117, glyphs := 4, width := 2034, ascent := 968, descent := 216 } ]

/-- Expected lines of the "bidi rtl" case of `TestIndexPositionLines`
(right-to-left base, End alignment, line width 10240 units), embedded from
the source. -/
def bidiRTLLines : List lineInfo :=
  [ { xOff := 0, yOff := 22, glyphs := 20, width := 9836, ascent := 1407, descent := 756 },
    { xOff := 0, yOff := 56, glyphs := 19, width := 8801, ascent := 1407, descent := 756 },
    { xOff := 0, yOff := 90, glyphs := 13, width := 5852, ascent := 1407, descent := 756 } ]

/-- Expected lines of the "bidi ltr opposite alignment" case of
`TestIndexPositionLines` (left-to-right base, End alignment), embedded
from the source. -/
def bidiLTROppLines : List lineInfo :=
  [ { xOff := 3107, yOff := 22, glyphs := 15, width := 7133, ascent := 1407, descent := 756 },
    { xOff := 2335, yOff := 56, glyphs := 15, width := 7905, ascent := 1407, descent := 756 },
    { xOff := 1427, yOff := 90, glyphs := 18, width := 8813, ascent := 1407, descent := 756 },
    { xOff := 8206, yOff := 117, glyphs := 4, width := 2034, ascent := 968, descent := 216 } ]

/-- Expected lines of the "bidi rtl opposite alignment" case of
`TestIndexPositionLines` (right-to-left base, Start alignment), embedded
from the source. -/
def bidiRTLOppLines : List lineInfo :=
  [ { xOff := 404, yOff := 22, glyphs := 20, width := 9836, ascent := 1407, descent := 756 },
    { xOff := 1439, yOff := 56, glyphs := 19, width := 8801, ascent := 1407, descent := 756 },
    { xOff := 4388, yOff := 90, glyphs := 13, width := 5852, ascent := 1407, descent := 756 } ]

/-- Layout parameters of the "bidi ltr" case (default Start alignment,
English locale, MinWidth = MaxWidth = 160 px). -/
def bidiLTRParams : layoutParams := { maxWidth := 10240 }

/-- Layout parameters of the "bidi rtl" case (End alignment, Arabic
locale). -/
def bidiRTLParams : layoutParams :=
  { align := text.Alignment.End, maxWidth := 10240, baseRTL := true }

/-- Layout parameters of the "bidi ltr opposite alignment" case. -/
def bidiLTROppParams : layoutParams :=
  { align := text.Alignment.End, maxWidth := 10240 }

/-- Layout parameters of the "bidi rtl opposite alignment" case. -/
def bidiRTLOppParams : layoutParams :=
  { align := text.Alignment.Start, maxWidth := 10240, baseRTL := true }

/-- Expected positions of the "many newlines" case of
`TestIndexPositionRunes` (the four compared fields: rune offset, line and
column, run index, direction), embedded from the source. -/
def expectedRunesPositions : List combinedPos :=
  [ { runes := 0, lineCol := { line := 0, col := 0 }, runIndex := 0, towardOrigin := false },
    { runes := 1, lineCol := { line := 0, col := 1 }, runIndex := 0, towardOrigin := false },
    { runes := 2, lineCol := { line := 0, col := 2 }, runIndex := 0, towardOrigin := false },
    { runes := 3, lineCol := { line := 0, col := 3 }, runIndex := 0, towardOrigin := false },
    { runes := 4, lineCol := { line := 1, col := 0 }, runIndex := 0, towardOrigin := false },
    { runes := 5, lineCol := { line := 1, col := 1 }, runIndex := 0, towardOrigin := false },
    { runes := 6, lineCol := { line := 1, col := 2 }, runIndex := 0, towardOrigin := false },
    { runes := 7, lineCol := { line := 1, col := 3 }, runIndex := 0, towardOrigin := false },
    { runes := 8, lineCol := { line := 1, col := 4 }, runIndex := 0, towardOrigin := false },
    { runes := 9, lineCol := { line := 1, col := 5 }, runIndex := 0, towardOrigin := false },
    { runes := 10, lineCol := { line := 1, col := 6 }, runIndex := 0, towardOrigin := false },
    { runes := 10, lineCol := { line := 1, col := 6 }, runIndex := 1, towardOrigin := true },
    { runes := 11, lineCol := { line := 1, col := 7 }, runIndex := 1, towardOrigin := true },
    { runes := 12, lineCol := { line := 1, col := 8 }, runIndex := 1, towardOrigin := true },
    { runes := 13, lineCol := { line := 1, col := 9 }, runIndex := 1, towardOrigin := true },
    { runes := 14, lineCol := { line := 1, col := 10 }, runIndex := 1, towardOrigin := true },
    { runes := 15, lineCol := { line := 1, col := 11 }, runIndex := 1, towardOrigin := true },
    { runes := 16, lineCol := { line := 1, col := 12 }, runIndex := 2, towardOrigin := true },
    { runes := 17, lineCol := { line := 1, col := 13 }, runIndex := 2, towardOrigin := true },
    { runes := 18, lineCol := { line := 2, col := 0 }, runIndex := 0, towardOrigin := true },
    { runes := 19, lineCol := { line := 2, col := 1 }, runIndex := 0, towardOrigin := true },
    { runes := 20, lineCol := { line := 2, col := 2 }, runIndex := 0, towardOrigin := true },
    { runes := 21, lineCol := { line := 2, col := 3 }, runIndex := 0, towardOrigin := true },
    { runes := 22, lineCol := { line := 2, col := 4 }, runIndex := 1, towardOrigin := true },
    { runes := 23, lineCol := { line := 2, col := 5 }, runIndex := 1, towardOrigin := true },
    { runes := 24, lineCol := { line := 2, col := 6 }, runIndex := 1, towardOrigin := true },
    { runes := 24, lineCol := { line := 2, col := 6 }, runIndex := 2, towardOrigin := false },
    { runes := 25, lineCol := { line := 2, col := 7 }, runIndex := 2, towardOrigin := false },
    { runes := 26, lineCol := { line := 2, col := 8 }, runIndex := 2, towardOrigin := false },
    { runes := 27, lineCol := { line := 2, col := 9 }, runIndex := 2, towardOrigin := false },
    { runes := 28, lineCol := { line := 3, col := 0 }, runIndex := 0, towardOrigin := true },
    { runes := 29, lineCol := { line := 3, col := 1 }, runIndex := 0, towardOrigin := true },
    { runes := 30, lineCol := { line := 3, col := 2 }, runIndex := 0, towardOrigin := true },
    { runes := 31, lineCol := { line := 3, col := 3 }, runIndex := 0, towardOrigin := true },
    { runes := 32, lineCol := { line := 3, col := 4 }, runIndex := 0, towardOrigin := true },
    { runes := 33, lineCol := { line := 3, col := 5 }, runIndex := 1, towardOrigin := true },
    { runes := 34, lineCol := { line := 3, col := 6 }, runIndex := 1, towardOrigin := true },
    { runes := 35, lineCol := { line := 4, col := 0 }, runIndex := 0, towardOrigin := true },
    { runes := 36, lineCol := { line := 4, col := 1 }, runIndex := 0, towardOrigin := true },
    { runes := 37, lineCol := { line := 4, col := 2 }, runIndex := 0, towardOrigin := true },
    { runes := 38, lineCol := { line := 4, col := 3 }, runIndex := 0, towardOrigin := true } ]

/-! ## Concrete glyph streams modelled from the shaper contract -/

/-- Modelled from the shaper output contract (§6): one ASCII rune shaped
with the test face at 16 px (advance 570 units, ascent 968, descent 216,
as recorded in `TestIndexPositionWhitespace`). -/
def glyphA : Glyph := { advance := 570, runes := 1, ascent := 968, descent := 216 }

/-- Modelled from the shaper output contract (§6): the synthetic newline
glyph — one rune, no advance, mandatory break ending its line. -/
def glyphNL : Glyph :=
  { runes := 1, ascent := 968, descent := 216, breaksLine := true,
    breaksParagraph := true }

/-- Modelled from the shaper output contract (§6): the final visible rune
of a document, carrying the line-end flag. -/
def glyphBEnd : Glyph :=
  { advance := 570, runes := 1, ascent := 968, descent := 216, breaksLine := true }

/-- Layout parameters of `TestIndexPositionWhitespace`: Start alignment,
200 px wrap width. -/
def whitespaceParams : layoutParams := { maxWidth := 12800 }

/-- Modelled glyph stream for the input "a\n\nb" of the "blank line" case. -/
def glyphsBlankLine : List Glyph := [glyphA, glyphNL, glyphNL, glyphBEnd]

/-- C1: feeding the index the shaped glyph stream for "a\n\nb"
(left-to-right, Start-aligned) yields exactly the five positions of the
embedded expected table, spanning three visual lines with rune offsets
0, 1 on line 0 (columns 0, 1), 2 on line 1 (column 0) and 3, 4 on line 2
(columns 0, 1), in exactly that order. -/
theorem C1_blankLine_positions :
    (glyphIndexRun whitespaceParams glyphsBlankLine).positions = expectedBlankLine ∧
    expectedBlankLine.map (fun p => (p.runes, p.lineCol.line, p.lineCol.col)) =
      [(0, 0, 0), (1, 0, 1), (2, 1, 0), (3, 2, 0), (4, 2, 1)] ∧
    expectedBlankLine.length = 5 := by
  refine ⟨by decide, by decide, by decide⟩

/-- Alignment law checked over a finished-lines table: every line's
recorded `xOff` equals the alignment offset computed from the layout's
alignment, base direction, alignment width and the line's own width. -/
def xOffLawful (P : layoutParams) (ls : List lineInfo) : Bool :=
  ls.all (fun li => li.xOff == alignOff P.align P.baseRTL P.maxWidth li.width)

/-- Layout parameters for the concrete Middle-alignment run. -/
def middleParams : layoutParams := { align := text.Alignment.Middle, maxWidth := 1000 }

/-- Modelled two-glyph single-line stream used for the Middle-alignment
law (two glyphs of advance 100, line width 200). -/
def glyphsMiddle : List Glyph :=
  [ { advance := 100, runes := 1 }, { advance := 100, runes := 1, breaksLine := true } ]

/-- C6 counterexample: in the "bidi rtl" case of `TestIndexPositionLines`
the alignment is End, the alignment width 10240 and line 0's width 9836,
yet the expected `xOff` is 0 and not 10240 − 9836 = 404: the claimed
`xOff = maxWidth − lineWidth` law for End alignment fails for a
right-to-left paragraph (End is resolved against the reading direction). -/
theorem C6_counterexample :
    bidiRTLParams.align = text.Alignment.End ∧
    (bidiRTLLines.get ⟨0, by decide⟩).xOff = 0 ∧
    bidiRTLParams.maxWidth - (bidiRTLLines.get ⟨0, by decide⟩).width = 404 ∧
    (bidiRTLLines.get ⟨0, by decide⟩).xOff ≠
      bidiRTLParams.maxWidth - (bidiRTLLines.get ⟨0, by decide⟩).width := by
  refine ⟨rfl, by decide, by decide, by decide⟩

/-- C6 (amended): for every finished line, independent of content, the
recorded `xOff` equals the alignment offset with Start and End resolved
relative to the paragraph's base direction — 0 for Start, maxWidth −
lineWidth for End on a left-to-right base, mirrored on a right-to-left
base — and (maxWidth − lineWidth)/2 for Middle either way; all four
embedded expected tables obey this law, and in a Middle-aligned model run
the line's `xOff` is (maxWidth − lineWidth)/2 with the same offset added
to every position's x on the line (line-relative x values 0, 100, 200
become 400, 500, 600). -/
theorem C6_alignment_law :
    (xOffLawful bidiLTRParams bidiLTRLines &&
     xOffLawful bidiRTLParams bidiRTLLines &&
     xOffLawful bidiLTROppParams bidiLTROppLines &&
     xOffLawful bidiRTLOppParams bidiRTLOppLines) = true ∧
    (glyphIndexRun middleParams glyphsMiddle).lines =
      [{ xOff := 400, yOff := 0, width := 200, ascent := 0, descent := 0,
         glyphs := 2 }] ∧
    alignOff text.Alignment.Middle false 1000 200 = Int.tdiv (1000 - 200) 2 ∧
    (glyphIndexRun middleParams glyphsMiddle).positions.map combinedPos.x =
      [0 + 400, 100 + 400, 200 + 400] := by
  refine ⟨by decide, by decide, by decide, by decide⟩

/-- Baseline law checked over consecutive lines of a finished-lines table:
each next line's `yOff` advances by the pixel ceiling of the previous
line's descent plus the next line's ascent, strictly increasing. -/
def yOffChain : List lineInfo → Bool
  | a :: b :: rest =>
      (b.yOff == a.yOff + fixedCeil (a.descent + b.ascent)) &&
      decide (a.yOff < b.yOff) && yOffChain (b :: rest)
  | _ => true

/-- Baseline law for a whole table: line 0 sits at the pixel ceiling of
its own ascent and consecutive baselines obey `yOffChain`. -/
def yOffLawful (ls : List lineInfo) : Bool :=
  (match ls with
   | [] => true
   | p :: _ => p.yOff == fixedCeil p.ascent) && yOffChain ls

/-- C8 counterexample: in the "bidi ltr" expected table the step from
line 2 (ascent 1407, descent 756) to line 3 (ascent 968, descent 216) is
117 − 90 = 27 pixels, while the pixel ceiling of line 3's ascent+descent
is 19 and that of line 2's is 34: on either reading, the increment does
not equal "each line's ascent+descent". -/
theorem C8_counterexample :
    (bidiLTRLines.get ⟨3, by decide⟩).yOff - (bidiLTRLines.get ⟨2, by decide⟩).yOff = 27 ∧
    fixedCeil ((bidiLTRLines.get ⟨3, by decide⟩).ascent +
      (bidiLTRLines.get ⟨3, by decide⟩).descent) = 19 ∧
    fixedCeil ((bidiLTRLines.get ⟨2, by decide⟩).ascent +
      (bidiLTRLines.get ⟨2, by decide⟩).descent) = 34 ∧
    (27 : Int) ≠ 19 ∧ (27 : Int) ≠ 34 := by
  refine ⟨by decide, by decide, by decide, by decide, by decide⟩

/-- C8 (amended): across the finished lines of one layout, `yOff` strictly
increases; line 0's `yOff` is the pixel ceiling of the first line's
ascent, and each subsequent line's `yOff` advances by the pixel ceiling of
the previous line's descent plus the new line's ascent (which coincides
with "ascent+descent" only while consecutive lines share metrics).  All
four embedded expected tables and the model's "a\n\nb" run obey the law. -/
theorem C8_baseline_law :
    (yOffLawful bidiLTRLines && yOffLawful bidiRTLLines &&
     yOffLawful bidiLTROppLines && yOffLawful bidiRTLOppLines) = true ∧
    yOffLawful (glyphIndexRun whitespaceParams glyphsBlankLine).lines = true := by
  refine ⟨by decide, by decide⟩

/-- Seam-duplication law checked over consecutive expected positions: two
consecutive positions agree on rune offset and line/column exactly when
they straddle a run boundary (run index advancing by one) within one line
whose two runs differ in direction. -/
def seamDuplicationConsistent : List combinedPos → Bool
  | a :: b :: rest =>
      ((a.runes == b.runes && a.lineCol == b.lineCol) ==
        (b.runIndex == a.runIndex + 1 && a.lineCol.line == b.lineCol.line &&
          a.towardOrigin != b.towardOrigin)) &&
      seamDuplicationConsistent (b :: rest)
  | _ => true

/-- C10 counterexample: in the expected table of `TestIndexPositionRunes`,
positions 16 and 17 straddle the boundary between runs 1 and 2 of line 1
(two adjacent right-to-left runs from a script change), yet their rune
offsets are 15 and 16 and their columns 11 and 12 — no duplicated
position is emitted at this run boundary, refuting "two distinct
consecutive positions sharing runes and lineCol at every run boundary". -/
theorem C10_counterexample :
    (expectedRunesPositions.get ⟨17, by decide⟩).runIndex =
      (expectedRunesPositions.get ⟨16, by decide⟩).runIndex + 1 ∧
    (expectedRunesPositions.get ⟨17, by decide⟩).lineCol.line =
      (expectedRunesPositions.get ⟨16, by decide⟩).lineCol.line ∧
    (expectedRunesPositions.get ⟨16, by decide⟩).runes = 15 ∧
    (expectedRunesPositions.get ⟨17, by decide⟩).runes = 16 ∧
    (expectedRunesPositions.get ⟨16, by decide⟩).runes ≠
      (expectedRunesPositions.get ⟨17, by decide⟩).runes := by
  refine ⟨by decide, by decide, by decide, by decide, by decide⟩

/-- C10 (amended): consecutive positions duplicate their rune offset and
line/column exactly at run boundaries whose adjacent runs differ in
direction, where they carry consecutive run indices and opposite
`towardOrigin` flags; boundaries between same-direction runs advance the
rune offset and column with no duplicate.  Both direction-changing seams
of the expected table (positions 10/11 and 25/26) show the duplicate. -/
theorem C10_seam_duplication :
    seamDuplicationConsistent expectedRunesPositions = true ∧
    (expectedRunesPositions.get ⟨10, by decide⟩).runes =
      (expectedRunesPositions.get ⟨11, by decide⟩).runes ∧
    (expectedRunesPositions.get ⟨10, by decide⟩).lineCol =
      (expectedRunesPositions.get ⟨11, by decide⟩).lineCol ∧
    (expectedRunesPositions.get ⟨10, by decide⟩).runIndex ≠
      (expectedRunesPositions.get ⟨11, by decide⟩).runIndex ∧
    (expectedRunesPositions.get ⟨10, by decide⟩).towardOrigin ≠
      (expectedRunesPositions.get ⟨11, by decide⟩).towardOrigin ∧
    (expectedRunesPositions.get ⟨25, by decide⟩).runes =
      (expectedRunesPositions.get ⟨26, by decide⟩).runes ∧
    (expectedRunesPositions.get ⟨25, by decide⟩).lineCol =
      (expectedRunesPositions.get ⟨26, by decide⟩).lineCol ∧
    (expectedRunesPositions.get ⟨25, by decide⟩).towardOrigin ≠
      (expectedRunesPositions.get ⟨26, by decide⟩).towardOrigin := by
  exact ⟨by decide, by decide, by decide, by decide, by decide, by decide,
    by decide, by decide⟩

theorem glyphIndex.feedNL_pending (st : glyphIndex)
    (h1 : st.pendingHard = true) (h2 : st.cur = []) :
    (glyphIndex.Glyph whitespaceParams st glyphNL).done.length = st.done.length + 1 ∧
    (glyphIndex.Glyph whitespaceParams st glyphNL).cur = [] ∧
    (glyphIndex.Glyph whitespaceParams st glyphNL).pendingHard = true := by
  simp [glyphIndex.Glyph, glyphNL, h1, h2, glyphIndex.emitLineStart,
    glyphIndex.accountBreak, glyphIndex.closeLine]

theorem replicateNL_state (n : Nat) :
    ((List.replicate (n + 1) glyphNL).foldl (glyphIndex.Glyph whitespaceParams)
      glyphIndex.reset).done.length = n + 1 ∧
    ((List.replicate (n + 1) glyphNL).foldl (glyphIndex.Glyph whitespaceParams)
      glyphIndex.reset).cur = [] ∧
    ((List.replicate (n + 1) glyphNL).foldl (glyphIndex.Glyph whitespaceParams)
      glyphIndex.reset).pendingHard = true := by
  induction n with
  | zero => refine ⟨by decide, by decide, by decide⟩
  | succ m ih =>
    obtain ⟨hd, hc, hp⟩ := ih
    have hrep : List.replicate (m + 1 + 1) glyphNL =
        List.replicate (m + 1) glyphNL ++ [glyphNL] := List.replicate_succ' (m + 1) glyphNL
    rw [hrep, List.foldl_append]
    obtain ⟨hd2, hc2, hp2⟩ := glyphIndex.feedNL_pending _ hp hc
    simp only [List.foldl_cons, List.foldl_nil]
    exact ⟨by rw [hd2, hd], hc2, hp2⟩

/-- C7: a document with zero glyphs yields exactly one position, at rune
offset 0, line 0, column 0; a document consisting solely of n hard line
breaks yields n + 1 positions — one per line-break boundary, including
the final position after the trailing newline ("\n" yields 2 positions on
lines 0 and 1, "\n\n" yields 3 on lines 0, 1 and 2); the index is a total
function on such streams, so it cannot panic. -/
theorem C7_hard_breaks :
    (glyphIndexRun whitespaceParams []).positions = [{}] ∧
    (glyphIndexRun whitespaceParams [glyphNL]).positions.map
      (fun p => (p.runes, p.lineCol.line, p.lineCol.col)) = [(0, 0, 0), (1, 1, 0)] ∧
    (glyphIndexRun whitespaceParams [glyphNL, glyphNL]).positions.map
      (fun p => (p.runes, p.lineCol.line, p.lineCol.col)) =
      [(0, 0, 0), (1, 1, 0), (2, 2, 0)] ∧
    ∀ n : Nat, (glyphIndexRun whitespaceParams
      (List.replicate n glyphNL)).positions.length = n + 1 := by
  refine ⟨by decide, by decide, by decide, ?_⟩
  intro n
  cases n with
  | zero => decide
  | succ m =>
    obtain ⟨hd, hc, hp⟩ := replicateNL_state m
    simp [glyphIndexRun, glyphIndex.positions, glyphIndex.finish, hp, hc,
      glyphIndex.emitLineStart, hd]

/-- Witness for `C7_hard_breaks` at a five-newline document. -/
theorem C7_hard_breaks_witness :
    (glyphIndexRun whitespaceParams
      (List.replicate 5 glyphNL)).positions.length = 5 + 1 :=
  C7_hard_breaks.2.2.2 5

/-! ## Monotonicity invariant of the index -/

/-- Consecutive-position ordering checked by `TestIndexPositionBidi`: rune
offsets non-decreasing and line/column lexicographically non-decreasing
(line strictly advances, or line equal and column non-decreasing). -/
def posLE (p q : combinedPos) : Prop :=
  p.runes ≤ q.runes ∧
  (p.lineCol.line < q.lineCol.line ∨
    (p.lineCol.line = q.lineCol.line ∧ p.lineCol.col ≤ q.lineCol.col))

/-- Bound of an emitted position by the index's counters: the position
does not exceed rune count `r` and visual coordinates (`l`, `c`). -/
def markLE (p : combinedPos) (r l c : Nat) : Prop :=
  p.runes ≤ r ∧
  (p.lineCol.line < l ∨ (p.lineCol.line = l ∧ p.lineCol.col ≤ c))

/-- Monotonicity invariant of the index state: emitted positions are
`posLE`-chained, the most recent one is bounded by the counters, a pending
line-start position implies the column counter was reset, and the list is
nonempty starting at rune offset 0. -/
def glyphIndex.Inv (st : glyphIndex) : Prop :=
  List.Chain' posLE (st.done ++ st.cur) ∧
  (∀ p, (st.done ++ st.cur).getLast? = some p → markLE p st.runes st.line st.col) ∧
  ((st.pendingHard = true ∨ st.pendingSoft = true) → st.col = 0) ∧
  (∃ p, (st.done ++ st.cur).head? = some p ∧ p.runes = 0)

theorem chain_posLE_snoc (l : List combinedPos) (q : combinedPos)
    (hch : List.Chain' posLE l)
    (hlast : ∀ p, l.getLast? = some p → posLE p q) :
    List.Chain' posLE (l ++ [q]) := by
  rw [List.chain'_append]
  refine ⟨hch, List.chain'_singleton q, ?_⟩
  intro x hx y hy
  simp at hy
  subst hy
  exact hlast x (Option.mem_def.mp hx)

theorem getLast_snoc (l : List combinedPos) (q : combinedPos) :
    (l ++ [q]).getLast? = some q := by
  rw [List.getLast?_append_of_ne_nil l (by simp)]
  rfl

theorem head_snoc_ne_nil (l : List combinedPos) (q : combinedPos) (h : l ≠ []) :
    (l ++ [q]).head? = l.head? :=
  List.head?_append_of_ne_nil l h

theorem finalizePos_runes (o y a d : Int) (p : combinedPos) :
    (finalizePos o y a d p).runes = p.runes := rfl

theorem finalizePos_lineCol (o y a d : Int) (p : combinedPos) :
    (finalizePos o y a d p).lineCol = p.lineCol := rfl

theorem posLE_finalize_right (o y a d : Int) (p q : combinedPos) :
    posLE p (finalizePos o y a d q) ↔ posLE p q := by
  unfold posLE
  rw [finalizePos_runes, finalizePos_lineCol]

theorem posLE_finalize_both (o y a d : Int) (p q : combinedPos) :
    posLE (finalizePos o y a d p) (finalizePos o y a d q) ↔ posLE p q := by
  unfold posLE
  rw [finalizePos_runes, finalizePos_lineCol, finalizePos_runes, finalizePos_lineCol]

theorem markLE_finalize (o y a d : Int) (p : combinedPos) (r l c : Nat) :
    markLE (finalizePos o y a d p) r l c ↔ markLE p r l c := by
  unfold markLE
  rw [finalizePos_runes, finalizePos_lineCol]

theorem chain_posLE_append_map_finalize (A B : List combinedPos) (o y a d : Int)
    (h : List.Chain' posLE (A ++ B)) :
    List.Chain' posLE (A ++ B.map (finalizePos o y a d)) := by
  rw [List.chain'_append] at h ⊢
  obtain ⟨h1, h2, h3⟩ := h
  refine ⟨h1, ?_, ?_⟩
  · rw [List.chain'_map]
    exact h2.imp (fun p q hpq => (posLE_finalize_both o y a d p q).mpr hpq)
  · intro x hx y hy
    rw [List.head?_map] at hy
    cases hB : B.head? with
    | none => rw [hB] at hy; simp at hy
    | some b =>
      rw [hB] at hy
      simp at hy
      subst hy
      exact (posLE_finalize_right o y a d x b).mpr (h3 x hx b (Option.mem_def.mpr hB))

theorem glyphIndex.Inv_emitLineStart (st : glyphIndex) (rt : Bool)
    (h : st.Inv) (hcol : st.col = 0) : (st.emitLineStart rt).Inv := by
  obtain ⟨hch, hlast, hpend, hhead⟩ := h
  obtain ⟨p0, hp0, hp0r⟩ := hhead
  have hne : st.done ++ st.cur ≠ [] := by
    intro h0; rw [h0] at hp0; simp at hp0
  unfold glyphIndex.Inv glyphIndex.emitLineStart
  simp only [← List.append_assoc]
  refine ⟨?_, ?_, ?_, ?_⟩
  · apply chain_posLE_snoc _ _ hch
    intro p hp
    have hm := hlast p hp
    unfold markLE at hm
    unfold posLE
    simp only [screenPos.line, screenPos.col]
    simp
    omega
  · intro p hp
    rw [getLast_snoc] at hp
    injection hp with hp
    subst hp
    unfold markLE
    simp
  · simp
  · refine ⟨p0, ?_, hp0r⟩
    rw [head_snoc_ne_nil _ _ hne]
    exact hp0

theorem markLE_nextLine (p : combinedPos) (r l c c2 : Nat) (h : markLE p r l c) :
    markLE p r (l + 1) c2 := by
  unfold markLE at h ⊢
  omega

theorem getLast_append_map_finalize (A B : List combinedPos) (o y a d : Int)
    (p : combinedPos) (hp : (A ++ B.map (finalizePos o y a d)).getLast? = some p) :
    ∃ p2, (A ++ B).getLast? = some p2 ∧ p.runes = p2.runes ∧ p.lineCol = p2.lineCol := by
  cases B with
  | nil =>
    simp at hp ⊢
    exact ⟨p, hp, rfl, rfl⟩
  | cons b bs =>
    rw [List.getLast?_append_of_ne_nil _ (by simp : (b :: bs).map (finalizePos o y a d) ≠ [])] at hp
    rw [List.getLast?_append_of_ne_nil _ (by simp : (b :: bs) ≠ [])]
    rw [List.getLast?_map] at hp
    cases hB : (b :: bs).getLast? with
    | none => rw [hB] at hp; simp at hp
    | some q =>
      rw [hB] at hp
      simp at hp
      subst hp
      exact ⟨q, rfl, rfl, rfl⟩

theorem head_append_map_finalize (A B : List combinedPos) (o y a d : Int)
    (p0 : combinedPos) (hp : (A ++ B).head? = some p0) :
    ∃ p1, (A ++ B.map (finalizePos o y a d)).head? = some p1 ∧ p1.runes = p0.runes := by
  cases A with
  | nil =>
    cases B with
    | nil => simp at hp
    | cons b bs =>
      simp at hp
      refine ⟨finalizePos o y a d b, by simp, ?_⟩
      rw [finalizePos_runes, hp]
  | cons a2 as =>
    simp at hp
    exact ⟨a2, by simp, by rw [hp]⟩

theorem glyphIndex.Inv_closeLine (P : layoutParams) (st : glyphIndex)
    (h : st.Inv) : (st.closeLine P).Inv := by
  obtain ⟨hch, hlast, hpend, hhead⟩ := h
  obtain ⟨p0, hp0, hp0r⟩ := hhead
  simp only [glyphIndex.Inv, glyphIndex.closeLine, List.append_nil]
  refine ⟨?_, ?_, ?_, ?_⟩
  · exact chain_posLE_append_map_finalize _ _ _ _ _ _ hch
  · intro p hp
    obtain ⟨p2, hp2, hr, hl⟩ := getLast_append_map_finalize _ _ _ _ _ _ p hp
    have hm := markLE_nextLine p2 st.runes st.line st.col 0 (hlast p2 hp2)
    unfold markLE at hm ⊢
    rw [hr, hl]
    exact hm
  · intro _
    trivial
  · obtain ⟨p1, hp1, hr1⟩ := head_append_map_finalize _ _ _ _ _ _ p0 hp0
    exact ⟨p1, hp1, by rw [hr1, hp0r]⟩

theorem glyphIndex.Inv_emitRunesAux (base adv : Int) (total : Nat) (n : Nat)
    (st : glyphIndex) (h : st.Inv)
    (hph : st.pendingHard = false) (hps : st.pendingSoft = false) :
    (glyphIndex.emitRunesAux base adv total n st).Inv ∧
    (glyphIndex.emitRunesAux base adv total n st).pendingHard = false ∧
    (glyphIndex.emitRunesAux base adv total n st).pendingSoft = false := by
  induction n generalizing st with
  | zero => exact ⟨h, hph, hps⟩
  | succ m ih =>
    simp only [glyphIndex.emitRunesAux]
    apply ih
    · obtain ⟨hch, hlast, hpend, hhead⟩ := h
      obtain ⟨p0, hp0, hp0r⟩ := hhead
      have hne : st.done ++ st.cur ≠ [] := by
        intro h0; rw [h0] at hp0; simp at hp0
      refine ⟨?_, ?_, ?_, ?_⟩
      · show List.Chain' posLE (st.done ++ (st.cur ++ [_]))
        rw [← List.append_assoc]
        apply chain_posLE_snoc _ _ hch
        intro p hp
        have hm := hlast p hp
        unfold markLE at hm
        unfold posLE
        simp
        omega
      · intro p hp
        simp only [← List.append_assoc] at hp
        rw [getLast_snoc] at hp
        injection hp with hp
        subst hp
        unfold markLE
        simp
      · simp [hph, hps]
      · refine ⟨p0, ?_, hp0r⟩
        simp only [← List.append_assoc]
        rw [head_snoc_ne_nil _ _ hne]
        exact hp0
    · simp [hph]
    · simp [hps]

theorem Inv_runBoundary (g : Glyph) (st : glyphIndex)
    (h : st.Inv) (hph : st.pendingHard = false) (hps : st.pendingSoft = false) :
    (glyphIndex.runBoundary g st).Inv ∧
    (glyphIndex.runBoundary g st).pendingHard = false ∧
    (glyphIndex.runBoundary g st).pendingSoft = false := by
  obtain ⟨hch, hlast, hpend, hhead⟩ := h
  obtain ⟨p0, hp0, hp0r⟩ := hhead
  have hne : st.done ++ st.cur ≠ [] := by
    intro h0; rw [h0] at hp0; simp at hp0
  unfold glyphIndex.runBoundary glyphIndex.Inv
  split
  · exact ⟨⟨hch, hlast, by simp [hph, hps], ⟨p0, hp0, hp0r⟩⟩, hph, hps⟩
  · split
    · dsimp only
      split
      · refine ⟨⟨?_, ?_, ?_, ?_⟩, hph, hps⟩
        · show List.Chain' posLE (st.done ++ (st.cur ++ [_]))
          rw [← List.append_assoc]
          apply chain_posLE_snoc _ _ hch
          intro p hp
          have hm := hlast p hp
          unfold markLE at hm
          unfold posLE
          simp
          omega
        · intro p hp
          simp only [← List.append_assoc] at hp
          rw [getLast_snoc] at hp
          injection hp with hp
          subst hp
          unfold markLE
          simp
        · simp [hph, hps]
        · refine ⟨p0, ?_, hp0r⟩
          simp only [← List.append_assoc]
          rw [head_snoc_ne_nil _ _ hne]
          exact hp0
      · exact ⟨⟨hch, hlast, by simp [hph, hps], ⟨p0, hp0, hp0r⟩⟩, hph, hps⟩
    · exact ⟨⟨hch, hlast, by simp [hph, hps], ⟨p0, hp0, hp0r⟩⟩, hph, hps⟩

theorem Inv_pendingEmit (st : glyphIndex) (rt : Bool) (h : st.Inv) :
    (if st.pendingHard || st.pendingSoft then st.emitLineStart rt else st).Inv ∧
    (if st.pendingHard || st.pendingSoft then st.emitLineStart rt else st).pendingHard
      = false ∧
    (if st.pendingHard || st.pendingSoft then st.emitLineStart rt else st).pendingSoft
      = false := by
  split
  · rename_i hc
    simp at hc
    refine ⟨glyphIndex.Inv_emitLineStart st rt h (h.2.2.1 ?_), ?_, ?_⟩
    · rcases hc with hc | hc
      · exact Or.inl hc
      · exact Or.inr hc
    · simp [glyphIndex.emitLineStart]
    · simp [glyphIndex.emitLineStart]
  · rename_i hc
    simp at hc
    exact ⟨h, hc.1, hc.2⟩

theorem Inv_accountBreak (g : Glyph) (st : glyphIndex) (h : st.Inv)
    (hph : st.pendingHard = false) (hps : st.pendingSoft = false) :
    (glyphIndex.accountBreak g st).Inv := by
  obtain ⟨hch, hlast, hpend, hhead⟩ := h
  refine ⟨hch, ?_, by simp [glyphIndex.accountBreak, hph, hps], hhead⟩
  intro p hp
  have hm := hlast p hp
  unfold markLE at hm ⊢
  simp [glyphIndex.accountBreak]
  omega

theorem Inv_accountMetrics (g : Glyph) (st : glyphIndex) (h : st.Inv)
    (hph : st.pendingHard = false) (hps : st.pendingSoft = false) :
    (glyphIndex.accountMetrics g st).Inv ∧
    (glyphIndex.accountMetrics g st).pendingHard = false ∧
    (glyphIndex.accountMetrics g st).pendingSoft = false := by
  obtain ⟨hch, hlast, hpend, hhead⟩ := h
  refine ⟨⟨hch, hlast, by simp [glyphIndex.accountMetrics, hph, hps], hhead⟩, ?_, ?_⟩
  · simp [glyphIndex.accountMetrics, hph]
  · simp [glyphIndex.accountMetrics, hps]

theorem Inv_advanceGlyph (g : Glyph) (st : glyphIndex) (h : st.Inv)
    (hph : st.pendingHard = false) (hps : st.pendingSoft = false) :
    (glyphIndex.advanceGlyph g st).Inv := by
  obtain ⟨hch, hlast, hpend, hhead⟩ := h
  exact ⟨hch, hlast, by simp [glyphIndex.advanceGlyph, hph, hps], hhead⟩

theorem Inv_closeThenPendHard (P : layoutParams) (s : glyphIndex) (rt : Bool)
    (h : s.Inv) :
    ({ s.closeLine P with pendingHard := true, runToward := rt } : glyphIndex).Inv := by
  obtain ⟨hch, hlast, hpend, hhead⟩ := glyphIndex.Inv_closeLine P s h
  exact ⟨hch, hlast, fun _ => rfl, hhead⟩

theorem Inv_closeThenPendSoft (P : layoutParams) (s : glyphIndex) (h : s.Inv) :
    ({ s.closeLine P with pendingSoft := true } : glyphIndex).Inv := by
  obtain ⟨hch, hlast, hpend, hhead⟩ := glyphIndex.Inv_closeLine P s h
  exact ⟨hch, hlast, fun _ => rfl, hhead⟩

theorem Inv_Glyph (P : layoutParams) (st : glyphIndex) (g : Glyph)
    (h : st.Inv) : (glyphIndex.Glyph P st g).Inv := by
  unfold glyphIndex.Glyph
  dsimp only
  obtain ⟨hAInv, hAph, hAps⟩ := Inv_pendingEmit st g.towardOrigin h
  split
  · exact Inv_closeThenPendHard P _ g.towardOrigin
      (Inv_accountBreak g _ hAInv hAph hAps)
  · obtain ⟨hRInv, hRph, hRps⟩ := Inv_runBoundary g _ hAInv hAph hAps
    obtain ⟨hMInv, hMph, hMps⟩ := Inv_accountMetrics g _ hRInv hRph hRps
    obtain ⟨hEInv, hEph, hEps⟩ := glyphIndex.Inv_emitRunesAux
      (glyphIndex.accountMetrics g (glyphIndex.runBoundary g
        (if st.pendingHard || st.pendingSoft
          then st.emitLineStart g.towardOrigin else st))).x
      g.advance g.runes g.runes _ hMInv hMph hMps
    have hXInv := Inv_advanceGlyph g _ hEInv hEph hEps
    split
    · exact Inv_closeThenPendSoft P _ hXInv
    · exact hXInv

theorem Inv_reset : glyphIndex.reset.Inv := by
  refine ⟨?_, ?_, ?_, ?_⟩
  · simp [glyphIndex.reset]
  · intro p hp
    simp [glyphIndex.reset] at hp
    subst hp
    exact ⟨Nat.le_refl 0, Or.inr ⟨rfl, Nat.le_refl 0⟩⟩
  · intro hc
    rfl
  · exact ⟨{}, rfl, rfl⟩

theorem Inv_finish (st : glyphIndex) (h : st.Inv) : st.finish.Inv := by
  unfold glyphIndex.finish
  split
  · rename_i hc
    exact glyphIndex.Inv_emitLineStart st st.runToward h (h.2.2.1 (Or.inl hc))
  · exact h

theorem glyphIndexRun_Inv (P : layoutParams) (gs : List Glyph) :
    (glyphIndexRun P gs).Inv := by
  unfold glyphIndexRun
  apply Inv_finish
  suffices hgen : ∀ s : glyphIndex, s.Inv → (gs.foldl (glyphIndex.Glyph P) s).Inv from
    hgen glyphIndex.reset Inv_reset
  induction gs with
  | nil => intro s hs; exact hs
  | cons g rest ih =>
    intro s hs
    exact ih _ (Inv_Glyph P s g hs)

/-- C3: over the full position sequence produced by one complete pass of
any glyph stream through the index, rune offsets are monotonically
non-decreasing, line numbers are monotonically non-decreasing, and any two
consecutive positions with equal line have non-decreasing columns. -/
theorem C3_position_monotonicity (P : layoutParams) (gs : List Glyph) :
    List.Chain' (fun p q => p.runes ≤ q.runes) (glyphIndexRun P gs).positions ∧
    List.Chain' (fun p q => p.lineCol.line ≤ q.lineCol.line)
      (glyphIndexRun P gs).positions ∧
    List.Chain' (fun p q => p.lineCol.line = q.lineCol.line →
      p.lineCol.col ≤ q.lineCol.col) (glyphIndexRun P gs).positions := by
  have h := (glyphIndexRun_Inv P gs).1
  have hpos : (glyphIndexRun P gs).positions =
      (glyphIndexRun P gs).done ++ (glyphIndexRun P gs).cur := rfl
  rw [hpos]
  refine ⟨h.imp ?_, h.imp ?_, h.imp ?_⟩ <;>
    intro p q hpq <;> unfold posLE at hpq <;> omega

/-! ## Rune-offset query -/

/-- Modelled from the spec (§6): the rune-offset query — walk the position
table in order and return the last position whose rune offset does not
exceed the queried offset (the nearest position with runes ≤ offset); the
table's initial position (rune offset 0) answers when no later position
qualifies. -/
def closestToRune : List combinedPos → Nat → combinedPos
  | [], _ => {}
  | [p], _ => p
  | p :: q :: rest, o => if q.runes ≤ o then closestToRune (q :: rest) o else p

/-- Modelled from the spec (§6) and `TestSelectableZeroValue`: `SetCaret`
resolves both selection endpoints with the rune-offset query against the
position table (clamping each to an addressable position) and `Selection`
reports the clamped rune offsets. -/
def Selectable.caretSelection (positions : List combinedPos) (s e : Nat) : Nat × Nat :=
  ((closestToRune positions s).runes, (closestToRune positions e).runes)

theorem closestToRune_le : ∀ (l : List combinedPos) (o : Nat),
    (∀ p, l.head? = some p → p.runes ≤ o) → (closestToRune l o).runes ≤ o
  | [], o, _ => by
    simp [closestToRune]
  | [p], o, h0 => by
    simp [closestToRune]
    exact h0 p rfl
  | p :: q :: rest, o, h0 => by
    by_cases hq : q.runes ≤ o
    · rw [show closestToRune (p :: q :: rest) o = closestToRune (q :: rest) o from by
        simp [closestToRune, hq]]
      refine closestToRune_le (q :: rest) o ?_
      intro r hr
      injection hr with hr
      rw [← hr]
      exact hq
    · rw [show closestToRune (p :: q :: rest) o = p from by simp [closestToRune, hq]]
      exact h0 p rfl

theorem chain_runes_head_le : ∀ (l : List combinedPos) (q : combinedPos),
    List.Chain' (fun a b => a.runes ≤ b.runes) (q :: l) →
    ∀ r ∈ q :: l, q.runes ≤ r.runes := by
  intro l
  induction l with
  | nil =>
    intro q hch r hr
    simp at hr
    rw [hr]
  | cons b rest ih =>
    intro q hch r hr
    have hqb : q.runes ≤ b.runes := (List.chain'_cons.mp hch).1
    rcases List.mem_cons.mp hr with rfl | hr
    · exact Nat.le_refl _
    · have := ih b (List.chain'_cons.mp hch).2 r hr
      omega

theorem closestToRune_ge : ∀ (l : List combinedPos) (o : Nat),
    List.Chain' (fun a b => a.runes ≤ b.runes) l →
    ∀ r ∈ l, r.runes ≤ o → r.runes ≤ (closestToRune l o).runes
  | [], o, _, r, hr, _ => by simp at hr
  | [p], o, _, r, hr, _ => by
    simp at hr
    rw [show closestToRune [p] o = p from by simp [closestToRune], hr]
  | p :: q :: rest, o, hch, r, hr, hro => by
    by_cases hq : q.runes ≤ o
    · rw [show closestToRune (p :: q :: rest) o = closestToRune (q :: rest) o from by
        simp [closestToRune, hq]]
      rcases List.mem_cons.mp hr with rfl | hr2
      · have hpq : r.runes ≤ q.runes := (List.chain'_cons.mp hch).1
        have hqres := closestToRune_ge (q :: rest) o (List.chain'_cons.mp hch).2 q
          (List.mem_cons_self q rest) hq
        omega
      · exact closestToRune_ge (q :: rest) o (List.chain'_cons.mp hch).2 r hr2 hro
    · rw [show closestToRune (p :: q :: rest) o = p from by simp [closestToRune, hq]]
      rcases List.mem_cons.mp hr with rfl | hr2
      · exact Nat.le_refl _
      · have := chain_runes_head_le rest q (List.chain'_cons.mp hch).2 r hr2
        omega

theorem closestToRune_clamp : ∀ (l : List combinedPos) (o : Nat) (L : combinedPos),
    l.getLast? = some L → (∀ r ∈ l, r.runes ≤ o) →
    closestToRune l o = L
  | [], o, L, hL, _ => by simp at hL
  | [p], o, L, hL, _ => by
    simp at hL
    rw [show closestToRune [p] o = p from by simp [closestToRune], hL]
  | p :: q :: rest, o, L, hL, hall => by
    have hq : q.runes ≤ o := hall q (List.mem_cons_of_mem p (List.mem_cons_self q rest))
    rw [show closestToRune (p :: q :: rest) o = closestToRune (q :: rest) o from by
      simp [closestToRune, hq]]
    refine closestToRune_clamp (q :: rest) o L ?_ ?_
    · rw [← hL, List.getLast?_cons_cons]
    · intro r hr
      exact hall r (List.mem_cons_of_mem p hr)

/-- C9: for every layout, glyph stream and rune offset, the query returns
the nearest position with runes ≤ offset — its rune offset does not
exceed the query, every table position at or below the queried offset has
a rune offset no larger than the answer's, and an offset at or beyond the
last position clamps to the last addressable position; in particular, on
the zero-value Selectable (empty text) `SetCaret 5 5` followed by
`Selection` yields (0, 0). -/
theorem C9_caret_query (P : layoutParams) (gs : List Glyph) (o : Nat) :
    (closestToRune (glyphIndexRun P gs).positions o).runes ≤ o ∧
    (∀ r ∈ (glyphIndexRun P gs).positions, r.runes ≤ o →
      r.runes ≤ (closestToRune (glyphIndexRun P gs).positions o).runes) ∧
    (∀ L, (glyphIndexRun P gs).positions.getLast? = some L →
      (∀ r ∈ (glyphIndexRun P gs).positions, r.runes ≤ o) →
      closestToRune (glyphIndexRun P gs).positions o = L) ∧
    Selectable.caretSelection (glyphIndexRun P []).positions 5 5 = (0, 0) := by
  obtain ⟨hch, hlast, hpend, p0, hp0, hp0r⟩ := glyphIndexRun_Inv P gs
  have hchr : List.Chain' (fun a b => a.runes ≤ b.runes)
      (glyphIndexRun P gs).positions := by
    have hpos : (glyphIndexRun P gs).positions =
        (glyphIndexRun P gs).done ++ (glyphIndexRun P gs).cur := rfl
    rw [hpos]
    exact hch.imp (fun a b hab => hab.1)
  refine ⟨?_, ?_, ?_, ?_⟩
  · refine closestToRune_le _ o ?_
    intro p hp
    have : p = p0 := by
      have h2 := hp0 ▸ hp
      injection h2 with h2
      exact h2.symm
    rw [this, hp0r]
    exact Nat.zero_le o
  · intro r hr hro
    exact closestToRune_ge _ o hchr r hr hro
  · intro L hL hall
    exact closestToRune_clamp _ o L hL hall
  · rfl

/-- Witness for `C9_caret_query`: querying offset 10 on the "a\n\nb" run
clamps to the final position (rune offset 4, line 2, column 1). -/
theorem C9_caret_query_witness :
    closestToRune (glyphIndexRun whitespaceParams glyphsBlankLine).positions 10 =
      { x := 570, y := 54, ascent := 968, descent := 216, runes := 4,
        lineCol := { line := 2, col := 1 } } :=
  (C9_caret_query whitespaceParams glyphsBlankLine 10).2.2.1 _ (by decide) (by decide)
